import Mathlib

/-!
Verification model of the go-treemux segmented wildcard trie
(`wildcardTrie` with its `Add`, `grow`, `newTrie`, `Get`, `get` and
`equals` functions).

The Go code splits paths with `strings.Split` on a configurable
separator string.  Every separator occurring in the repository ("/" in
production code and tests, and hypothetical alternatives such as ":")
is a single character, so the separator is modelled as a `Char` and
`goSplit`/`goJoin` implement `strings.Split`/`strings.Join` for a
one-character separator.  Go's `interface{}` values are modelled by an
arbitrary type `α`, with `Option α` standing for a possibly-nil value
(`none` is Go's `nil`).  The `panic("path cannot end with slash")` in
`Add` is modelled by `Except`: `Add` returns `Except.error` exactly
when the Go code panics, and in that case no modified trie exists
(`addOrKeep` renders the caller's view: the trie is left unchanged).
Array indexing `xs[idx]` is modelled by `List.getD xs idx ""`; in the
Go code every executed index is in bounds, so the default is never the
deciding value on reachable executions.
-/

namespace TreemuxModel

/-- Splits a character list at every occurrence of the separator
character; this is `strings.Split` for a one-character separator
(it never returns an empty list, and splitting the empty string
yields `[[]]`). -/
def splitC (sep : Char) : List Char → List (List Char)
| [] => [[]]
| a :: rest =>
  if a = sep then [] :: splitC sep rest
  else
    match splitC sep rest with
    | [] => [[a]]
    | s :: ss => (a :: s) :: ss

/-- Joins character lists with the separator character in between;
this is `strings.Join` for a one-character separator. -/
def joinC (sep : Char) : List (List Char) → List Char
| [] => []
| [x] => x
| x :: y :: rest => x ++ sep :: joinC sep (y :: rest)

/-- String-level wrapper of `splitC`: `strings.Split(s, sep)`. -/
def goSplit (sep : Char) (s : String) : List String :=
  (splitC sep s.data).map String.mk

/-- String-level wrapper of `joinC`: `strings.Join(xs, sep)`. -/
def goJoin (sep : Char) (xs : List String) : String :=
  String.mk (joinC sep (xs.map String.data))

theorem splitC_ne_nil (sep : Char) (l : List Char) : splitC sep l ≠ [] := by
  induction l with
  | nil => simp [splitC]
  | cons a rest ih =>
    simp only [splitC]
    split
    · simp
    · cases h : splitC sep rest with
      | nil => exact absurd h ih
      | cons s ss => simp

theorem joinC_splitC (sep : Char) (l : List Char) :
    joinC sep (splitC sep l) = l := by
  induction l with
  | nil => simp [splitC, joinC]
  | cons a rest ih =>
    simp only [splitC]
    split
    · rename_i ha
      cases h : splitC sep rest with
      | nil => exact absurd h (splitC_ne_nil sep rest)
      | cons s ss =>
        rw [h] at ih
        simp [joinC, ← ih, ha]
    · cases h : splitC sep rest with
      | nil => exact absurd h (splitC_ne_nil sep rest)
      | cons s ss =>
        rw [h] at ih
        cases ss with
        | nil => simpa [joinC] using ih
        | cons y ys => simpa [joinC] using ih

theorem splitC_eq_singleton_nil_iff (sep : Char) (l : List Char) :
    splitC sep l = [[]] ↔ l = [] := by
  constructor
  · intro h
    cases l with
    | nil => rfl
    | cons a rest =>
      simp only [splitC] at h
      split at h
      · have := splitC_ne_nil sep rest
        simp at h
        exact absurd h this
      · cases hsp : splitC sep rest with
        | nil => exact absurd hsp (splitC_ne_nil sep rest)
        | cons s ss => rw [hsp] at h; simp at h
  · intro h; subst h; rfl

theorem goSplit_ne_nil (sep : Char) (s : String) : goSplit sep s ≠ [] := by
  simpa [goSplit] using splitC_ne_nil sep s.data

theorem goJoin_goSplit (sep : Char) (s : String) :
    goJoin sep (goSplit sep s) = s := by
  cases s with
  | mk data =>
    simp [goJoin, goSplit, List.map_map, Function.comp_def, joinC_splitC]

theorem goSplit_eq_singleton_empty_iff (sep : Char) (s : String) :
    goSplit sep s = [""] ↔ s = "" := by
  cases s with
  | mk data =>
    constructor
    · intro h
      simp only [goSplit] at h
      have hd : splitC sep data = [[]] := by
        cases hsp : splitC sep data with
        | nil => exact absurd hsp (splitC_ne_nil sep data)
        | cons s ss =>
          rw [hsp] at h
          simp at h
          obtain ⟨h1, h2⟩ := h
          have : s = [] := congrArg String.data h1
          simp [this, h2]
      have hdata : data = [] := (splitC_eq_singleton_nil_iff sep data).mp hd
      subst hdata
      rfl
    · intro h
      have : data = [] := congrArg String.data h
      subst this
      rfl

/-- The trie node of the Go code, `type wildcardTrie struct` with
fields `separator`, `key`, `pattern`, `value interface{}` and
`children []wildcardTrie` (a Lean structure cannot be recursive, hence
a single-constructor inductive). -/
inductive wildcardTrie (α : Type) : Type where
| node (separator : Char) (key : String) (pattern : String)
    (value : Option α) (children : List (wildcardTrie α))

namespace wildcardTrie

def separator : wildcardTrie α → Char
| .node s _ _ _ _ => s

def key : wildcardTrie α → String
| .node _ k _ _ _ => k

def pattern : wildcardTrie α → String
| .node _ _ p _ _ => p

def value : wildcardTrie α → Option α
| .node _ _ _ v _ => v

def children : wildcardTrie α → List (wildcardTrie α)
| .node _ _ _ _ c => c

end wildcardTrie

/-- `newWildcardTrie(separator)`: root node with the given separator,
empty key and (zero-valued) empty pattern, no value, no children. -/
def newWildcardTrie (sep : Char) : wildcardTrie α :=
  .node sep "" "" none []

/-- `newTrie(sep, key, path)`: a fresh node whose pattern is the
literal `"/"` followed by the path slice joined with the separator. -/
def newTrie (sep : Char) (k : String) (path : List String) : wildcardTrie α :=
  .node sep k ("/" ++ goJoin sep path) none []

/-- Assignment `c.value = v` of the Go code. -/
def withValue : wildcardTrie α → α → wildcardTrie α
| .node s k p _ cs, v => .node s k p (some v) cs

/-- `const wildcard = "*"`. -/
def wildcard : String := "*"

mutual
/-- The recursive worker of `Add`: `func (t *wildcardTrie) grow(idx int,
xs []string, v interface{})`.  If the segments are exhausted the value
is overwritten; otherwise the first child whose key equals the current
segment is grown (`growChildren` returning `some`); otherwise a fresh
child is created with `newTrie` and appended, receiving the value when
it is the last segment and being grown further otherwise. -/
def grow : wildcardTrie α → Nat → List String → α → wildcardTrie α
| .node sep k pat val cs, idx, xs, v =>
  if xs.length = idx then .node sep k pat (some v) cs
  else match growChildren cs idx xs v with
    | some cs' => .node sep k pat val cs'
    | none =>
      if _h : idx < xs.length then
        let c := newTrie sep (xs.getD idx "") (xs.take (idx+1))
        let c := if xs.length = idx + 1 then withValue c v else grow c (idx+1) xs v
        .node sep k pat val (cs ++ [c])
      else .node sep k pat val cs
termination_by t idx xs v => (xs.length - min idx xs.length, sizeOf t)
decreasing_by
  all_goals first
  | (apply Prod.Lex.left; omega)
  | (apply Prod.Lex.right' <;> first | omega | (simp <;> omega))

/-- The `for i := range t.children` loop of `grow`: returns `some`
with the updated list when a child key equals the current segment (the
first such child is grown in place), `none` when the loop falls
through. -/
def growChildren : List (wildcardTrie α) → Nat → List String → α → Option (List (wildcardTrie α))
| [], _, _, _ => none
| c :: rest, idx, xs, v =>
  if c.key = xs.getD idx "" then some (grow c (idx+1) xs v :: rest)
  else match growChildren rest idx xs v with
    | some rest' => some (c :: rest')
    | none => none
termination_by cs idx xs v => (xs.length - min idx xs.length, sizeOf cs)
decreasing_by
  all_goals first
  | (apply Prod.Lex.left; omega)
  | (apply Prod.Lex.right' <;> first | omega | (simp <;> omega))
end

/-- `func (t *wildcardTrie) Add(s string, v interface{})`: splits the
pattern, skips an empty first segment, panics (here: `Except.error`)
when the pattern has more than one segment and ends in an empty one,
and otherwise grows the trie. -/
def Add (t : wildcardTrie α) (s : String) (v : α) : Except String (wildcardTrie α) :=
  let xs := goSplit t.separator s
  let idx := if xs.headD "" = "" then 1 else 0
  if 1 < xs.length ∧ xs.getLastD "" = "" then .error "path cannot end with slash"
  else .ok (grow t idx xs v)

/-- The caller's view of `Add` across a panic: on success the new
trie, on the modelled panic the unmodified trie (the Go panic fires
before any mutation). -/
def addOrKeep (t : wildcardTrie α) (s : String) (v : α) : wildcardTrie α :=
  match Add t s v with
  | .ok t' => t'
  | .error _ => t

mutual
/-- `func (t *wildcardTrie) get(idx int, xs []string, wildcard string)`:
mismatching segment (and key not the wildcard) yields the childless
empty-key sentinel result or no match; the last segment yields the
node's value and pattern unconditionally; otherwise the children are
tried in order. -/
def get : wildcardTrie α → Nat → List String → String → Option α × String
| .node _ k pat v cs, idx, xs, w =>
  if xs.getD idx "" ≠ k ∧ k ≠ w then
    (if k = "" ∧ cs.length = 0 then (v, pat) else (none, ""))
  else if xs.length - idx = 1 then (v, pat)
  else getList cs (idx+1) xs w

/-- The `for _, c := range t.children` loop of `Get`/`get`: first
child whose recursive result carries a non-empty pattern wins. -/
def getList : List (wildcardTrie α) → Nat → List String → String → Option α × String
| [], _, _, _ => (none, "")
| c :: rest, idx, xs, w =>
  let r := get c idx xs w
  if r.2 ≠ "" then r else getList rest idx xs w
end

/-- `func (t *wildcardTrie) Get(s string) (interface{}, string)`:
splits the path; a leading empty segment resolves from the root node
itself, otherwise the root's children are tried in order. -/
def Get (t : wildcardTrie α) (s : String) : Option α × String :=
  let xs := goSplit t.separator s
  if xs.headD "" = "" then get t 0 xs wildcard
  else getList t.children 0 xs wildcard

mutual
/-- `func (t *wildcardTrie) equals(other wildcardTrie) bool`:
separator, key, pattern, value, number of children and the children
pairwise (in order) must agree. -/
def equals [DecidableEq α] : wildcardTrie α → wildcardTrie α → Bool
| .node s k p v cs, .node s' k' p' v' cs' =>
  s = s' && k = k' && p = p' && v = v' && cs.length = cs'.length && equalsChildren cs cs'

/-- The `for i, c := range t.children` loop of `equals` (the lists
have equal length when the loop runs in Go; unequal shapes simply
yield `false` here). -/
def equalsChildren [DecidableEq α] : List (wildcardTrie α) → List (wildcardTrie α) → Bool
| [], [] => true
| c :: rest, c' :: rest' => equals c c' && equalsChildren rest rest'
| _, _ => false
end

mutual
/-- Full-pattern invariant: every node strictly below the current one
carries the configured separator and has
`pattern = "/" ++ goJoin sep (segments from the root down to it)`,
where `pre` lists the segments accumulated so far. -/
def patOK (sep : Char) : List String → wildcardTrie α → Bool
| pre, .node _ _ _ _ cs => patOKChildren sep pre cs

/-- `patOK` for a list of sibling subtrees. -/
def patOKChildren (sep : Char) : List String → List (wildcardTrie α) → Bool
| _, [] => true
| pre, c :: rest =>
  ((c.separator = sep && c.pattern = "/" ++ goJoin sep (pre ++ [c.key]))
    && patOK sep (pre ++ [c.key]) c)
    && patOKChildren sep pre rest
end


/-! ### Small facts about the trie operations -/

theorem grow_separator (t : wildcardTrie α) (idx : Nat) (xs : List String) (v : α) :
    (grow t idx xs v).separator = t.separator := by
  cases t with
  | node s k p val cs =>
    simp only [grow]
    repeat' split
    all_goals simp [wildcardTrie.separator]

theorem grow_key (t : wildcardTrie α) (idx : Nat) (xs : List String) (v : α) :
    (grow t idx xs v).key = t.key := by
  cases t with
  | node s k p val cs =>
    simp only [grow]
    repeat' split
    all_goals simp [wildcardTrie.key]

theorem grow_pattern (t : wildcardTrie α) (idx : Nat) (xs : List String) (v : α) :
    (grow t idx xs v).pattern = t.pattern := by
  cases t with
  | node s k p val cs =>
    simp only [grow]
    repeat' split
    all_goals simp [wildcardTrie.pattern]

theorem grow_value_of_ne (t : wildcardTrie α) (idx : Nat) (xs : List String) (v : α)
    (h : xs.length ≠ idx) : (grow t idx xs v).value = t.value := by
  cases t with
  | node s k p val cs =>
    simp only [grow, if_neg h]
    repeat' split
    all_goals simp [wildcardTrie.value]

theorem growChildren_eq_none_iff (cs : List (wildcardTrie α)) (idx : Nat)
    (xs : List String) (v : α) :
    growChildren cs idx xs v = none ↔ ∀ c ∈ cs, c.key ≠ xs.getD idx "" := by
  induction cs with
  | nil => simp [growChildren]
  | cons c rest ih =>
    by_cases h : c.key = xs.getD idx ""
    · simp only [growChildren, if_pos h]
      simp only [reduceCtorEq, false_iff]
      intro hall
      exact hall c (by simp) h
    · simp only [growChildren, if_neg h]
      cases hg : growChildren rest idx xs v with
      | some rest' =>
        simp only [reduceCtorEq, false_iff]
        rw [hg] at ih
        simp at ih
        obtain ⟨x, hx, hk⟩ := ih
        intro hall
        exact hall x (List.mem_cons_of_mem _ hx) (by simpa using hk)
      | none =>
        rw [hg] at ih
        simp only [true_iff] at ih
        simp only [true_iff]
        intro c' hc'
        rcases List.mem_cons.mp hc' with h1 | h2
        · subst h1; exact h
        · exact ih c' h2

theorem growChildren_append_of_match (cs : List (wildcardTrie α)) (c1 : wildcardTrie α)
    (idx : Nat) (xs : List String) (v : α)
    (hall : ∀ c ∈ cs, c.key ≠ xs.getD idx "") (hc : c1.key = xs.getD idx "") :
    growChildren (cs ++ [c1]) idx xs v = some (cs ++ [grow c1 (idx+1) xs v]) := by
  induction cs with
  | nil => simp [growChildren, hc]
  | cons c rest ih =>
    have h1 : c.key ≠ xs.getD idx "" := hall c (by simp)
    simp only [List.cons_append, growChildren, if_neg h1]
    rw [ih (fun c hc => hall c (by simp [hc]))]

theorem getList_cons_of_ne (c : wildcardTrie α) (rest : List (wildcardTrie α))
    (idx : Nat) (xs : List String) (w : String) (h : (get c idx xs w).2 ≠ "") :
    getList (c :: rest) idx xs w = get c idx xs w := by
  simp [getList, h]

theorem getList_append_of_empty (pre rest : List (wildcardTrie α))
    (idx : Nat) (xs : List String) (w : String)
    (h : ∀ c ∈ pre, (get c idx xs w).2 = "") :
    getList (pre ++ rest) idx xs w = getList rest idx xs w := by
  induction pre with
  | nil => rfl
  | cons c pre' ih =>
    have h1 : (get c idx xs w).2 = "" := h c (by simp)
    simp only [List.cons_append, getList, h1]
    simp only [ne_eq, not_true_eq_false, if_neg, ite_false]
    exact ih (fun c hc => h c (by simp [hc]))

theorem patOKChildren_append (sep : Char) (pre : List String)
    (l1 l2 : List (wildcardTrie α)) :
    patOKChildren sep pre (l1 ++ l2)
      = (patOKChildren sep pre l1 && patOKChildren sep pre l2) := by
  induction l1 with
  | nil => simp [patOKChildren]
  | cons c rest ih => simp [patOKChildren, ih, Bool.and_assoc]

theorem getD_eq_headD_drop (l : List String) (n : Nat) (d : String) :
    l.getD n d = (l.drop n).headD d := by
  induction l generalizing n with
  | nil => simp
  | cons a rest ih =>
    cases n with
    | zero => simp
    | succ m => simpa using ih m

theorem str_slash_append_ne_empty (s : String) : ("/" ++ s) ≠ "" := by
  intro h
  have := congrArg String.data h
  simp [String.data_append] at this

/-- The chain of fresh nodes that `grow` hangs below a childless node:
one node per remaining segment, each created by `newTrie` for the
accumulated path, with the value placed on the last node. -/
def chainT (sep : Char) (v : α) : List String → List String → wildcardTrie α
| _, [] => .node sep "" "" none []
| pre, [seg] => .node sep seg ("/" ++ goJoin sep (pre ++ [seg])) (some v) []
| pre, seg :: s2 :: rest =>
  .node sep seg ("/" ++ goJoin sep (pre ++ [seg])) none
    [chainT sep v (pre ++ [seg]) (s2 :: rest)]

theorem grow_childless_aux (v : α) (xs : List String) :
    ∀ (n idx : Nat), xs.length - idx = n + 1 → idx < xs.length →
    ∀ (sep : Char) (k p : String) (val : Option α),
    grow (.node sep k p val []) idx xs v
      = .node sep k p val [chainT sep v (xs.take idx) (xs.drop idx)] := by
  intro n
  induction n with
  | zero =>
    intro idx hlen hidx sep k p val
    have hne : xs.length ≠ idx := by omega
    have hlast : xs.length = idx + 1 := by omega
    rw [grow]
    simp only [if_neg hne, growChildren, dif_pos hidx, if_pos hlast]
    have hdrop : xs.drop idx = [xs.getD idx ""] := by
      have h1 : xs.drop (idx + 1) = [] := by
        apply List.drop_eq_nil_of_le; omega
      have h2 : (xs.drop idx).length = 1 := by
        rw [List.length_drop]; omega
      cases hd : xs.drop idx with
      | nil => rw [hd] at h2; simp at h2
      | cons a rest =>
        rw [hd] at h2
        simp at h2
        rw [h2]
        have : a = xs.getD idx "" := by
          rw [getD_eq_headD_drop, hd]; rfl
        rw [this]
    have htake : xs.take (idx + 1) = xs.take idx ++ [xs.getD idx ""] := by
      rw [List.take_succ]
      congr 1
      have : xs[idx]? = some (xs.getD idx "") := by
        rw [List.getD_eq_getElem?_getD, List.getElem?_eq_getElem hidx]
        simp [List.getElem?_eq_getElem hidx]
      rw [this]
      rfl
    rw [hdrop, htake]
    simp [chainT, newTrie, withValue]
  | succ m ih =>
    intro idx hlen hidx sep k p val
    have hne : xs.length ≠ idx := by omega
    have hne1 : xs.length ≠ idx + 1 := by omega
    have hidx1 : idx + 1 < xs.length := by omega
    rw [grow]
    simp only [if_neg hne, growChildren, dif_pos hidx, if_neg hne1]
    rw [newTrie, ih (idx + 1) (by omega) hidx1]
    have htake : xs.take (idx + 1) = xs.take idx ++ [xs.getD idx ""] := by
      rw [List.take_succ]
      congr 1
      rw [List.getD_eq_getElem?_getD, List.getElem?_eq_getElem hidx]
      rfl
    have hdrop : xs.drop idx = xs.getD idx "" :: xs.drop (idx + 1) := by
      rw [getD_eq_headD_drop]
      cases hd : xs.drop idx with
      | nil =>
        have := List.length_drop idx xs
        rw [hd] at this
        simp at this
        omega
      | cons a rest =>
        have : xs.drop (idx + 1) = rest := by
          have := List.tail_drop xs idx
          rw [hd] at this
          simpa using this.symm
        rw [this]
        rfl
    have hdrop1 : ∃ b bs, xs.drop (idx + 1) = b :: bs := by
      cases hd : xs.drop (idx + 1) with
      | nil =>
        have := List.length_drop (idx + 1) xs
        rw [hd] at this
        simp at this
        omega
      | cons b bs => exact ⟨b, bs, rfl⟩
    obtain ⟨b, bs, hbs⟩ := hdrop1
    rw [hdrop, hbs, chainT, ← htake]
    simp

theorem grow_childless (sep : Char) (k p : String) (val : Option α) (v : α)
    (idx : Nat) (xs : List String) (hidx : idx < xs.length) :
    grow (.node sep k p val []) idx xs v
      = .node sep k p val [chainT sep v (xs.take idx) (xs.drop idx)] := by
  have : xs.length - idx = (xs.length - idx - 1) + 1 := by omega
  exact grow_childless_aux v xs (xs.length - idx - 1) idx this hidx sep k p val

theorem get_chainT (sep : Char) (v : α) (w : String) :
    ∀ (rest pre : List String) (idx : Nat) (xs : List String),
    xs.drop idx = rest → rest ≠ [] →
    get (chainT sep v pre rest) idx xs w
      = (some v, "/" ++ goJoin sep (pre ++ rest)) := by
  intro rest
  induction rest with
  | nil => intro pre idx xs _ hne; exact absurd rfl hne
  | cons seg rest' ih =>
    intro pre idx xs hdrop _
    have hseg : xs.getD idx "" = seg := by
      rw [getD_eq_headD_drop, hdrop]; rfl
    have hlen : xs.length - idx = rest'.length + 1 := by
      have := List.length_drop idx xs
      rw [hdrop] at this
      simp at this
      omega
    have hcond : ¬(xs.getD idx "" ≠ seg ∧ seg ≠ w) := fun hc => hc.1 hseg
    cases rest' with
    | nil =>
      have hlen1 : xs.length - idx = 1 := by simpa using hlen
      rw [chainT, get, if_neg hcond, if_pos hlen1]
    | cons s2 rs =>
      have hlen2 : ¬(xs.length - idx = 1) := by rw [hlen]; simp
      rw [chainT, get, if_neg hcond, if_neg hlen2]
      have hdrop1 : xs.drop (idx + 1) = s2 :: rs := by
        have := List.tail_drop xs idx
        rw [hdrop] at this
        simpa using this.symm
      have hr := ih (pre ++ [seg]) (idx + 1) xs hdrop1 (by simp)
      rw [getList, hr]
      simp only [ne_eq, str_slash_append_ne_empty, not_false_eq_true, if_true]
      rw [List.append_assoc]
      rfl

theorem addOrKeep_separator (t : wildcardTrie α) (s : String) (v : α) :
    (addOrKeep t s v).separator = t.separator := by
  simp only [addOrKeep, Add]
  by_cases h : 1 < (goSplit t.separator s).length ∧ (goSplit t.separator s).getLastD "" = ""
  · rw [if_pos h]
  · rw [if_neg h]
    exact grow_separator t _ _ v

theorem grow_grow (v2 : α) : ∀ (t : wildcardTrie α) (idx : Nat) (xs : List String) (v1 : α),
    grow (grow t idx xs v1) idx xs v2 = grow t idx xs v2 := by
  apply grow.induct
    (fun t idx xs v1 => grow (grow t idx xs v1) idx xs v2 = grow t idx xs v2)
    (fun cs idx xs v1 => ∀ cs', growChildren cs idx xs v1 = some cs' →
      growChildren cs' idx xs v2 = growChildren cs idx xs v2)
  case _ =>
    intro sep k pat val cs xs v1
    simp [grow]
  case _ =>
    intro sep k pat val cs idx xs v1 hlen cs' hsome ih2
    have h1 : ¬ (∀ c ∈ cs, c.key ≠ xs.getD idx "") := by
      intro hall
      rw [← growChildren_eq_none_iff cs idx xs v1] at hall
      rw [hall] at hsome
      exact Option.noConfusion hsome
    have hne2 : growChildren cs idx xs v2 ≠ none := fun h =>
      h1 ((growChildren_eq_none_iff cs idx xs v2).mp h)
    obtain ⟨cs2, hcs2⟩ := Option.ne_none_iff_exists'.mp hne2
    have hinner : grow (.node sep k pat val cs) idx xs v1 = .node sep k pat val cs' := by
      rw [grow, if_neg hlen, hsome]
    have houter : grow (.node sep k pat val cs') idx xs v2 = .node sep k pat val cs2 := by
      rw [grow, if_neg hlen, ih2 cs' hsome, hcs2]
    have hdirect : grow (.node sep k pat val cs) idx xs v2 = .node sep k pat val cs2 := by
      rw [grow, if_neg hlen, hcs2]
    rw [hinner, houter, hdirect]
  case _ =>
    intro sep k pat val cs idx xs v1 hlen hnone hlt c ih2 ih1
    have hall : ∀ c ∈ cs, c.key ≠ xs.getD idx "" :=
      (growChildren_eq_none_iff cs idx xs v1).mp hnone
    have hnone2 : growChildren cs idx xs v2 = none :=
      (growChildren_eq_none_iff cs idx xs v2).mpr hall
    have hkey1 : (if xs.length = idx + 1 then withValue c v1 else grow c (idx+1) xs v1).key
        = xs.getD idx "" := by
      split
      · rfl
      · rw [grow_key]
        rfl
    have hinner : grow (.node sep k pat val cs) idx xs v1
        = .node sep k pat val
            (cs ++ [if xs.length = idx + 1 then withValue c v1 else grow c (idx+1) xs v1]) := by
      rw [grow, if_neg hlen, hnone, dif_pos hlt]
    have hdirect : grow (.node sep k pat val cs) idx xs v2
        = .node sep k pat val
            (cs ++ [if xs.length = idx + 1 then withValue c v2 else grow c (idx+1) xs v2]) := by
      rw [grow, if_neg hlen, hnone2, dif_pos hlt]
    rw [hinner, hdirect, grow, if_neg hlen,
      growChildren_append_of_match cs _ idx xs v2 hall hkey1]
    have hlast : grow (if xs.length = idx + 1 then withValue c v1 else grow c (idx+1) xs v1)
        (idx+1) xs v2
        = (if xs.length = idx + 1 then withValue c v2 else grow c (idx+1) xs v2) := by
      split
      · rename_i hl
        show grow (.node sep (xs.getD idx "") ("/" ++ goJoin sep (xs.take (idx+1)))
            (some v1) []) (idx+1) xs v2 = _
        rw [grow, if_pos hl]
        rfl
      · exact ih1
    rw [hlast]
  case _ =>
    intro sep k pat val cs idx xs v1 hlen hnone hnlt ih2
    have hinner : grow (.node sep k pat val cs) idx xs v1 = .node sep k pat val cs := by
      rw [grow, if_neg hlen, hnone, dif_neg hnlt]
    rw [hinner]
  case _ =>
    intro idx xs v1 cs' h
    rw [growChildren] at h
    exact Option.noConfusion h
  case _ =>
    intro c rest idx xs v1 hk ih1 cs' hsome
    rw [growChildren, if_pos hk] at hsome
    have hcs' : cs' = grow c (idx+1) xs v1 :: rest := (Option.some.inj hsome).symm
    subst hcs'
    have hk2 : (grow c (idx+1) xs v1).key = xs.getD idx "" := by rw [grow_key]; exact hk
    rw [growChildren, if_pos hk2, ih1, growChildren, if_pos hk]
  case _ =>
    intro c rest idx xs v1 hk rest' hrest ih2 cs' hsome
    rw [growChildren, if_neg hk, hrest] at hsome
    have hcs' : cs' = c :: rest' := (Option.some.inj hsome).symm
    subst hcs'
    rw [growChildren, if_neg hk, ih2 rest' hrest, growChildren, if_neg hk]
  case _ =>
    intro c rest idx xs v1 hk hnone ih2 cs' hsome
    rw [growChildren, if_neg hk, hnone] at hsome
    exact Option.noConfusion hsome

theorem addOrKeep_absorb (t : wildcardTrie α) (p : String) (v1 v2 : α) :
    addOrKeep (addOrKeep t p v1) p v2 = addOrKeep t p v2 := by
  by_cases h : 1 < (goSplit t.separator p).length ∧ (goSplit t.separator p).getLastD "" = ""
  · have h1 : addOrKeep t p v1 = t := by
      simp only [addOrKeep, Add]
      rw [if_pos h]
    rw [h1]
  · have e1 : addOrKeep t p v1
        = grow t (if (goSplit t.separator p).headD "" = "" then 1 else 0)
            (goSplit t.separator p) v1 := by
      simp only [addOrKeep, Add]
      rw [if_neg h]
    have e3 : addOrKeep t p v2
        = grow t (if (goSplit t.separator p).headD "" = "" then 1 else 0)
            (goSplit t.separator p) v2 := by
      simp only [addOrKeep, Add]
      rw [if_neg h]
    rw [e1]
    have e2 : addOrKeep
        (grow t (if (goSplit t.separator p).headD "" = "" then 1 else 0)
          (goSplit t.separator p) v1) p v2
        = grow (grow t (if (goSplit t.separator p).headD "" = "" then 1 else 0)
            (goSplit t.separator p) v1)
            (if (goSplit t.separator p).headD "" = "" then 1 else 0)
            (goSplit t.separator p) v2 := by
      simp only [addOrKeep, Add, grow_separator]
      rw [if_neg h]
    rw [e2, grow_grow, e3]

theorem take_succ_getD (xs : List String) (idx : Nat) (h : idx < xs.length) :
    xs.take (idx+1) = xs.take idx ++ [xs.getD idx ""] := by
  rw [List.take_succ]
  congr 1
  rw [List.getD_eq_getElem?_getD, List.getElem?_eq_getElem h]
  rfl

theorem patOKChildren_separator (sep : Char) (pre : List String)
    (cs : List (wildcardTrie α)) (h : patOKChildren sep pre cs = true) :
    ∀ c ∈ cs, c.separator = sep := by
  induction cs with
  | nil => intro c hc; simp at hc
  | cons c rest ih =>
    rw [patOKChildren] at h
    simp only [Bool.and_eq_true, decide_eq_true_eq] at h
    intro c' hc'
    rcases List.mem_cons.mp hc' with h1 | h2
    · subst h1; exact h.1.1.1
    · exact ih (by simpa using h.2) c' h2

theorem patOK_grow (sep : Char) : ∀ (t : wildcardTrie α) (idx : Nat) (xs : List String) (v : α),
    t.separator = sep → idx ≤ xs.length → patOK sep (xs.take idx) t = true →
    patOK sep (xs.take idx) (grow t idx xs v) = true := by
  apply grow.induct
    (fun t idx xs v => t.separator = sep → idx ≤ xs.length →
      patOK sep (xs.take idx) t = true →
      patOK sep (xs.take idx) (grow t idx xs v) = true)
    (fun cs idx xs v => idx < xs.length →
      patOKChildren sep (xs.take idx) cs = true →
      ∀ cs', growChildren cs idx xs v = some cs' →
      patOKChildren sep (xs.take idx) cs' = true)
  case _ =>
    intro s' k pat val cs xs v _ _ hok
    rw [grow, if_pos rfl]
    rw [patOK] at hok ⊢
    exact hok
  case _ =>
    intro s' k pat val cs idx xs v hlen cs' hsome ih2 _ hle hok
    have hlt : idx < xs.length := by omega
    rw [grow, if_neg hlen, hsome]
    rw [patOK] at hok ⊢
    exact ih2 hlt hok cs' hsome
  case _ =>
    intro s' k pat val cs idx xs v hlen hnone hlt c ih2 ih1 hsep hle hok
    have hs' : s' = sep := hsep
    subst hs'
    rw [grow, if_neg hlen, hnone, dif_pos hlt]
    rw [patOK] at hok ⊢
    rw [patOKChildren_append, hok, Bool.true_and]
    have hkey1 : (if xs.length = idx + 1 then withValue c v else grow c (idx+1) xs v).key
        = xs.getD idx "" := by
      split
      · rfl
      · rw [grow_key]
        rfl
    have hsep1 : (if xs.length = idx + 1 then withValue c v else grow c (idx+1) xs v).separator
        = s' := by
      split
      · rfl
      · rw [grow_separator]
        rfl
    have hpat1 : (if xs.length = idx + 1 then withValue c v else grow c (idx+1) xs v).pattern
        = "/" ++ goJoin s' (xs.take (idx+1)) := by
      split
      · rfl
      · rw [grow_pattern]
        rfl
    rw [patOKChildren, patOKChildren, hkey1, hpat1, hsep1, ← take_succ_getD xs idx hlt]
    simp only [Bool.and_true, decide_eq_true_eq, Bool.and_eq_true, decide_True,
      Bool.true_and]
    split
    · rfl
    · exact ih1 rfl (by omega) rfl
  case _ =>
    intro s' k pat val cs idx xs v hlen hnone hnlt ih2 _ hle hok
    rw [grow, if_neg hlen, hnone, dif_neg hnlt]
    exact hok
  case _ =>
    intro idx xs v hlt hok cs' h
    rw [growChildren] at h
    exact Option.noConfusion h
  case _ =>
    intro c rest idx xs v hk ih1 hlt hok cs' hsome
    rw [growChildren, if_pos hk] at hsome
    have hcs' : cs' = grow c (idx+1) xs v :: rest := (Option.some.inj hsome).symm
    subst hcs'
    rw [patOKChildren] at hok ⊢
    simp only [Bool.and_eq_true, decide_eq_true_eq] at hok ⊢
    obtain ⟨⟨⟨hsepc, hp⟩, hsub⟩, hrest⟩ := hok
    refine ⟨⟨⟨?_, ?_⟩, ?_⟩, hrest⟩
    · rw [grow_separator]
      exact hsepc
    · rw [grow_pattern, grow_key]
      exact hp
    · rw [grow_key]
      have hpre : xs.take idx ++ [c.key] = xs.take (idx+1) := by
        rw [take_succ_getD xs idx hlt, hk]
      rw [hpre] at hsub ⊢
      exact ih1 hsepc (by omega) hsub
  case _ =>
    intro c rest idx xs v hk rest' hrest ih2 hlt hok cs' hsome
    rw [growChildren, if_neg hk, hrest] at hsome
    have hcs' : cs' = c :: rest' := (Option.some.inj hsome).symm
    subst hcs'
    rw [patOKChildren] at hok ⊢
    simp only [Bool.and_eq_true] at hok ⊢
    exact ⟨hok.1, ih2 hlt hok.2 rest' hrest⟩
  case _ =>
    intro c rest idx xs v hk hnone ih2 hlt hok cs' hsome
    rw [growChildren, if_neg hk, hnone] at hsome
    exact Option.noConfusion hsome

/-- A sequence of `Add` calls (caller's view, panics keep the old
trie), folded from the left. -/
def addAll (t : wildcardTrie α) (ops : List (String × α)) : wildcardTrie α :=
  ops.foldl (fun t pv => addOrKeep t pv.1 pv.2) t

theorem patOK_addOrKeep (sep : Char) (t : wildcardTrie α) (p : String) (v : α)
    (hsep : t.separator = sep) (hhead : (goSplit sep p).headD "" ≠ "")
    (hok : patOK sep [] t = true) : patOK sep [] (addOrKeep t p v) = true := by
  simp only [addOrKeep, Add, hsep]
  by_cases h : 1 < (goSplit sep p).length ∧ (goSplit sep p).getLastD "" = ""
  · rw [if_pos h]
    exact hok
  · rw [if_neg h, if_neg hhead]
    have := patOK_grow sep t 0 (goSplit sep p) v hsep (by omega) (by simpa using hok)
    simpa using this

theorem addAll_separator (t : wildcardTrie α) (ops : List (String × α)) :
    (addAll t ops).separator = t.separator := by
  induction ops generalizing t with
  | nil => rfl
  | cons pv rest ih =>
    show (addAll (addOrKeep t pv.1 pv.2) rest).separator = _
    rw [ih, addOrKeep_separator]

theorem addOrKeep_key (t : wildcardTrie α) (s : String) (v : α) :
    (addOrKeep t s v).key = t.key := by
  simp only [addOrKeep, Add]
  by_cases h : 1 < (goSplit t.separator s).length ∧ (goSplit t.separator s).getLastD "" = ""
  · rw [if_pos h]
  · rw [if_neg h]
    exact grow_key t _ _ v

theorem addOrKeep_value_of_ne (t : wildcardTrie α) (p : String) (v : α) (hp : p ≠ "") :
    (addOrKeep t p v).value = t.value := by
  simp only [addOrKeep, Add]
  by_cases h : 1 < (goSplit t.separator p).length ∧ (goSplit t.separator p).getLastD "" = ""
  · rw [if_pos h]
  · rw [if_neg h]
    have hne : goSplit t.separator p ≠ [""] := fun heq =>
      hp ((goSplit_eq_singleton_empty_iff _ _).mp heq)
    apply grow_value_of_ne
    split
    · rename_i hhead
      intro hl1
      apply hne
      cases hxs : goSplit t.separator p with
      | nil => exact absurd hxs (goSplit_ne_nil _ _)
      | cons x rest =>
        rw [hxs] at hl1 hhead
        simp at hl1
        rw [hl1] at hxs hhead ⊢
        simp at hhead
        rw [hhead]
    · intro hl0
      exact goSplit_ne_nil t.separator p (List.eq_nil_of_length_eq_zero hl0)

theorem addAll_key (ops : List (String × α)) :
    ∀ (t : wildcardTrie α), (addAll t ops).key = t.key := by
  induction ops with
  | nil => intro t; rfl
  | cons pv rest ih =>
    intro t
    show (addAll (addOrKeep t pv.1 pv.2) rest).key = _
    rw [ih, addOrKeep_key]

theorem addAll_value_of_ne (ops : List (String × α)) :
    ∀ (t : wildcardTrie α), (∀ pv ∈ ops, pv.1 ≠ "") →
    (addAll t ops).value = t.value := by
  induction ops with
  | nil => intro t _; rfl
  | cons pv rest ih =>
    intro t h
    show (addAll (addOrKeep t pv.1 pv.2) rest).value = _
    rw [ih _ (fun q hq => h q (List.mem_cons_of_mem _ hq)),
      addOrKeep_value_of_ne t pv.1 pv.2 (h pv (by simp))]

theorem patOK_addAll (sep : Char) (ops : List (String × α)) :
    ∀ (t : wildcardTrie α), t.separator = sep →
    (∀ pv ∈ ops, (goSplit sep pv.1).headD "" ≠ "") →
    patOK sep [] t = true → patOK sep [] (addAll t ops) = true := by
  induction ops with
  | nil => intro t _ _ h2; exact h2
  | cons pv rest ih =>
    intro t h1 hh h2
    show patOK sep [] (addAll (addOrKeep t pv.1 pv.2) rest) = true
    exact ih _ (by rw [addOrKeep_separator]; exact h1)
      (fun q hq => hh q (List.mem_cons_of_mem _ hq))
      (patOK_addOrKeep sep t pv.1 pv.2 h1 (hh pv (by simp)) h2)

/-! ### Claims -/

/-- C6: for every trie and value, if the pattern handed to `Add` ends
with the separator (more than one split segment and an empty final
one, as in `"foo/bar/"`), then `Add` fails with the invalid-pattern
panic and the trie is left completely unmodified. -/
theorem C6_trailing_separator_rejected {α : Type} (t : wildcardTrie α) (p : String) (v : α)
    (h1 : 1 < (goSplit t.separator p).length)
    (h2 : (goSplit t.separator p).getLastD "" = "") :
    Add t p v = .error "path cannot end with slash" ∧ addOrKeep t p v = t := by
  have he : Add t p v = .error "path cannot end with slash" := by
    simp only [Add]
    rw [if_pos ⟨h1, h2⟩]
  refine ⟨he, ?_⟩
  simp only [addOrKeep]
  rw [he]

/-- Witness for C6 at `Add("foo/bar/", 1)` on a fresh `"/"`-trie. -/
theorem C6_trailing_separator_rejected_witness :
    Add (newWildcardTrie '/') "foo/bar/" (1:Nat) = .error "path cannot end with slash"
    ∧ addOrKeep (newWildcardTrie '/') "foo/bar/" (1:Nat) = newWildcardTrie '/' :=
  C6_trailing_separator_rejected (newWildcardTrie '/') "foo/bar/" 1 (by decide) (by decide)

/-- C1: inserting `/foo/bar` (3) then `/foo/*` (99) into an empty
`"/"`-trie, the three lookups of the claim evaluate as the code
computes them: the values and the no-match case agree with the claim,
but the matched patterns carry a doubled leading slash
(`"//foo/bar"`, `"//foo/*"`), because `grow` keeps the skipped empty
first segment in the slice passed to `newTrie` and `newTrie` prefixes
a further literal `"/"`; the last conjunct records the divergence from
the claimed pattern `"/foo/bar"`. -/
theorem C1_wildcard_single_segment_eval :
    Get (addOrKeep (addOrKeep (newWildcardTrie '/') "/foo/bar" (3:Nat)) "/foo/*" 99)
      "/foo/bar" = (some 3, "//foo/bar")
    ∧ Get (addOrKeep (addOrKeep (newWildcardTrie '/') "/foo/bar" (3:Nat)) "/foo/*" 99)
      "/foo/anything" = (some 99, "//foo/*")
    ∧ Get (addOrKeep (addOrKeep (newWildcardTrie '/') "/foo/bar" (3:Nat)) "/foo/*" 99)
      "/foo/bar/extra" = ((none : Option Nat), "")
    ∧ ("//foo/bar" : String) ≠ "/foo/bar" := by
  have hT : addOrKeep (addOrKeep (newWildcardTrie '/') "/foo/bar" (3:Nat)) "/foo/*" 99
      = .node '/' "" "" none [.node '/' "foo" "//foo" none
          [.node '/' "bar" "//foo/bar" (some 3) [],
           .node '/' "*" "//foo/*" (some 99) []]] := by
    have ha : goSplit '/' "/foo/bar" = ["", "foo", "bar"] := rfl
    have hb : goSplit '/' "/foo/*" = ["", "foo", "*"] := rfl
    simp [addOrKeep, Add, ha, hb, grow, growChildren, newTrie, withValue,
      newWildcardTrie, wildcardTrie.separator, wildcardTrie.key, goJoin, joinC]
  rw [hT]
  exact ⟨by decide, by decide, by decide, by decide⟩

/-- C3: adding `/foo` and adding `foo` to fresh tries does not produce
equal tries — the leading-separator insertion stores the doubled-slash
full pattern `"//foo"` while the bare insertion stores `"/foo"`, and
the code's own `equals` rejects the pair — contradicting the doc
comment on `Add` that the two calls have the same result. -/
theorem C3_leading_separator_divergence :
    addOrKeep (newWildcardTrie '/') "/foo" (1:Nat)
        = .node '/' "" "" none [.node '/' "foo" "//foo" (some 1) []]
    ∧ addOrKeep (newWildcardTrie '/') "foo" (1:Nat)
        = .node '/' "" "" none [.node '/' "foo" "/foo" (some 1) []]
    ∧ equals (addOrKeep (newWildcardTrie '/') "/foo" (1:Nat))
        (addOrKeep (newWildcardTrie '/') "foo" (1:Nat)) = false := by
  have h1 : addOrKeep (newWildcardTrie '/') "/foo" (1:Nat)
      = .node '/' "" "" none [.node '/' "foo" "//foo" (some 1) []] := by
    have ha : goSplit '/' "/foo" = ["", "foo"] := rfl
    simp [addOrKeep, Add, ha, grow, growChildren, newTrie, withValue,
      newWildcardTrie, wildcardTrie.separator, wildcardTrie.key, goJoin, joinC]
  have h2 : addOrKeep (newWildcardTrie '/') "foo" (1:Nat)
      = .node '/' "" "" none [.node '/' "foo" "/foo" (some 1) []] := by
    have hb : goSplit '/' "foo" = ["foo"] := rfl
    simp [addOrKeep, Add, hb, grow, growChildren, newTrie, withValue,
      newWildcardTrie, wildcardTrie.separator, wildcardTrie.key, goJoin, joinC]
  refine ⟨h1, h2, ?_⟩
  rw [h1, h2]
  decide

/-- C7 counterexample: with only `/foo/bar` inserted, `Get("/foo")`
does return an absent value, but together with the non-empty pattern
of the intermediate `foo` node, not the empty string the claim
demands. -/
theorem C7_valueless_node_counterexample :
    Get (addOrKeep (newWildcardTrie '/') "/foo/bar" (3:Nat)) "/foo" = (none, "//foo")
    ∧ ((none, "//foo") : Option Nat × String) ≠ (none, "") := by
  have hT : addOrKeep (newWildcardTrie '/') "/foo/bar" (3:Nat)
      = .node '/' "" "" none [.node '/' "foo" "//foo" none
          [.node '/' "bar" "//foo/bar" (some 3) []]] := by
    have ha : goSplit '/' "/foo/bar" = ["", "foo", "bar"] := rfl
    simp [addOrKeep, Add, ha, grow, growChildren, newTrie, withValue,
      newWildcardTrie, wildcardTrie.separator, wildcardTrie.key, goJoin, joinC]
  rw [hT]
  exact ⟨by decide, by decide⟩

/-- C7 (amended): a node with no bound value reached at the final
segment of the lookup path is still reported with its (non-empty) full
pattern; only the value is absent.  With only `/foo/bar` inserted,
`Get("/foo")` returns `(none, "//foo")` for every inserted value. -/
theorem C7_valueless_node_amended (v : Nat) :
    Get (addOrKeep (newWildcardTrie '/') "/foo/bar" v) "/foo" = (none, "//foo") := by
  have hT : addOrKeep (newWildcardTrie '/') "/foo/bar" v
      = .node '/' "" "" none [.node '/' "foo" "//foo" none
          [.node '/' "bar" "//foo/bar" (some v) []]] := by
    have ha : goSplit '/' "/foo/bar" = ["", "foo", "bar"] := rfl
    simp [addOrKeep, Add, ha, grow, growChildren, newTrie, withValue,
      newWildcardTrie, wildcardTrie.separator, wildcardTrie.key, goJoin, joinC]
  rw [hT]
  have hs : goSplit '/' "/foo" = ["", "foo"] := rfl
  simp [Get, get, getList, hs, wildcardTrie.separator, wildcardTrie.children, wildcard]

/-- C8 counterexample: `Add` with the empty string as pattern sets the
root's value (the split is `[""]`, the empty first segment is skipped,
the segments are exhausted at the root and `grow` overwrites the
root's value), so the root does not always carry no value. -/
theorem C8_root_value_counterexample :
    (addOrKeep (newWildcardTrie '/') "" (5:Nat)).value = some 5
    ∧ some (5:Nat) ≠ none := by
  have ha : goSplit '/' "" = [""] := rfl
  constructor
  · simp [addOrKeep, Add, ha, grow, newWildcardTrie, wildcardTrie.separator,
      wildcardTrie.value]
  · decide

/-- C8 (amended): every trie reachable from `newWildcardTrie sep` by
`Add` calls has exactly one root whose segment stays the empty string;
the root carries no value provided no `Add` call used the empty
string as its pattern (`Add("", v)` sets the root's value). -/
theorem C8_root_invariant {α : Type} (sep : Char) (ops : List (String × α)) :
    (addAll (newWildcardTrie sep) ops).key = ""
    ∧ ((∀ pv ∈ ops, pv.1 ≠ "") → (addAll (newWildcardTrie sep) ops).value = none) := by
  constructor
  · rw [addAll_key]
    rfl
  · intro h
    rw [addAll_value_of_ne ops _ h]
    rfl

/-- Witness for C8 on the insertion sequence `[("foo", 1)]`. -/
theorem C8_root_invariant_witness :
    (addAll (newWildcardTrie '/') [("foo", (1:Nat))]).key = ""
    ∧ (addAll (newWildcardTrie '/') [("foo", (1:Nat))]).value = none :=
  ⟨(C8_root_invariant '/' [("foo", (1:Nat))]).1,
   (C8_root_invariant '/' [("foo", (1:Nat))]).2 (by decide)⟩

/-- C9 (amended): for a trie whose root has the empty key,
`Get("")` returns the root's value paired with the root's own pattern
field (which is the empty string on constructed tries, so the value is
returned but never flagged as a match), while `Get(separator)` does
not consult the root's value at all: it recurses into the children
with a final empty segment, and with no children it returns no match
even when the root's value is set. -/
theorem C9_root_resolution_amended {α : Type} (t : wildcardTrie α) (hk : t.key = "") :
    Get t "" = (t.value, t.pattern)
    ∧ (t.children = [] → Get t (String.mk [t.separator]) = (none, "")) := by
  obtain ⟨s, k, p, val, cs⟩ := t
  have hk' : k = "" := hk
  subst hk'
  constructor
  · have hs0 : goSplit s "" = [""] := rfl
    simp [Get, get, hs0, wildcardTrie.separator, wildcardTrie.value,
      wildcardTrie.pattern]
  · intro hcs
    have hcs' : cs = [] := hcs
    subst hcs'
    have hs1 : goSplit s (String.mk [s]) = ["", ""] := by
      simp [goSplit, splitC]
    simp [Get, get, getList, hs1, wildcardTrie.separator, wildcard]

/-- Witness for C9 on the trie obtained by `Add("", 5)` (root value
set): `Get("")` yields the value with the empty pattern, and
`Get("/")` reports no match although the root's value is set. -/
theorem C9_root_resolution_amended_witness :
    Get (addOrKeep (newWildcardTrie '/') "" (5:Nat)) "" = (some 5, "")
    ∧ Get (addOrKeep (newWildcardTrie '/') "" (5:Nat)) "/" = (none, "") := by
  have hT : addOrKeep (newWildcardTrie '/') "" (5:Nat) = .node '/' "" "" (some 5) [] := by
    have ha : goSplit '/' "" = [""] := rfl
    simp [addOrKeep, Add, ha, grow, newWildcardTrie, wildcardTrie.separator]
  have h := C9_root_resolution_amended (addOrKeep (newWildcardTrie '/') "" (5:Nat))
    (by rw [hT]; rfl)
  have h2 := h.2 (by rw [hT]; rfl)
  rw [hT] at h2
  constructor
  · rw [h.1, hT]
    rfl
  · rw [hT]
    exact h2

/-- C10 counterexample: in a trie that does contain a wildcard child
(`foo/*`, value 99) but also an earlier-registered empty-segment
sibling (created by the doubled separator in `foo//bar`), the lookup
`Get("foo/")` is won by the empty-segment child — `Get` returns
`(none, "/foo/")`, not the wildcard node's value and pattern. -/
theorem C10_wildcard_empty_segment_counterexample :
    Get (addOrKeep (addOrKeep (newWildcardTrie '/') "foo//bar" (1:Nat)) "foo/*" 99)
      "foo/" = (none, "/foo/")
    ∧ ((none, "/foo/") : Option Nat × String) ≠ (some 99, "/foo/*") := by
  have hT : addOrKeep (addOrKeep (newWildcardTrie '/') "foo//bar" (1:Nat)) "foo/*" 99
      = .node '/' "" "" none [.node '/' "foo" "/foo" none
          [.node '/' "" "/foo/" none [.node '/' "bar" "/foo//bar" (some 1) []],
           .node '/' "*" "/foo/*" (some 99) []]] := by
    have ha : goSplit '/' "foo//bar" = ["foo", "", "bar"] := rfl
    have hb : goSplit '/' "foo/*" = ["foo", "*"] := rfl
    simp [addOrKeep, Add, ha, hb, grow, growChildren, newTrie, withValue,
      newWildcardTrie, wildcardTrie.separator, wildcardTrie.key, goJoin, joinC]
  rw [hT]
  exact ⟨by decide, by decide⟩

/-- C10 (amended): a lookup path ending with the separator is not
rejected — its final split segment is empty and a wildcard child
matches it, so with `foo/bar` (3) and `foo/*` (99) registered,
`Get("foo/")` returns `(99, "/foo/*")`; and no child with a nonempty,
non-wildcard segment ever matches an empty segment (an earlier
empty-segment sibling, however, also matches it, see the
counterexample). -/
theorem C10_wildcard_empty_segment_amended :
    Get (addOrKeep (addOrKeep (newWildcardTrie '/') "foo/bar" (3:Nat)) "foo/*" 99)
      "foo/" = (some 99, "/foo/*")
    ∧ (∀ (α : Type) (c : wildcardTrie α) (idx : Nat) (xs : List String),
        xs.getD idx "" = "" → c.key ≠ "" → c.key ≠ wildcard →
        get c idx xs wildcard = ((none : Option α), "")) := by
  constructor
  · have hT : addOrKeep (addOrKeep (newWildcardTrie '/') "foo/bar" (3:Nat)) "foo/*" 99
        = .node '/' "" "" none [.node '/' "foo" "/foo" none
            [.node '/' "bar" "/foo/bar" (some 3) [],
             .node '/' "*" "/foo/*" (some 99) []]] := by
      have ha : goSplit '/' "foo/bar" = ["foo", "bar"] := rfl
      have hb : goSplit '/' "foo/*" = ["foo", "*"] := rfl
      simp [addOrKeep, Add, ha, hb, grow, growChildren, newTrie, withValue,
        newWildcardTrie, wildcardTrie.separator, wildcardTrie.key, goJoin, joinC]
    rw [hT]
    decide
  · intro α c idx xs hseg hk hw
    obtain ⟨s, k, p, val, cs⟩ := c
    have hk' : k ≠ "" := hk
    have hw' : k ≠ wildcard := hw
    rw [get, if_pos ⟨by rw [hseg]; exact fun h => hk' h.symm, hw'⟩,
      if_neg (fun hc => hk' hc.1)]

/-- Witness for C10's general conjunct: the literal child `bar` does
not match the empty final segment of `["foo", ""]`. -/
theorem C10_wildcard_empty_segment_amended_witness :
    get (wildcardTrie.node '/' "bar" "/foo/bar" (some (3:Nat)) []) 1 ["foo", ""] wildcard
      = (none, "") :=
  C10_wildcard_empty_segment_amended.2 Nat
    (wildcardTrie.node '/' "bar" "/foo/bar" (some 3) []) 1 ["foo", ""]
    (by decide) (by decide) (by decide)

/-- C2: at a node whose segment matches the current path segment and
which is not at the final segment, the lookup returns the result of
the child that appears earliest in the children list whose subtree
yields a non-empty matched pattern (later siblings are irrelevant);
concretely, registering `foo/*` (99) before `foo/bar` (3) makes
`Get("foo/bar")` return `(99, "/foo/*")`, and reordering the
insertions flips the winner to `(3, "/foo/bar")`. -/
theorem C2_first_registered_wins :
    (∀ (α : Type) (sep : Char) (k pat : String) (val : Option α)
        (pre post : List (wildcardTrie α)) (c : wildcardTrie α)
        (idx : Nat) (xs : List String),
      (xs.getD idx "" = k ∨ k = wildcard) →
      xs.length - idx ≠ 1 →
      (∀ c' ∈ pre, (get c' (idx+1) xs wildcard).2 = "") →
      (get c (idx+1) xs wildcard).2 ≠ "" →
      get (.node sep k pat val (pre ++ c :: post)) idx xs wildcard
        = get c (idx+1) xs wildcard)
    ∧ Get (addOrKeep (addOrKeep (newWildcardTrie '/') "foo/*" (99:Nat)) "foo/bar" 3)
        "foo/bar" = (some 99, "/foo/*")
    ∧ Get (addOrKeep (addOrKeep (newWildcardTrie '/') "foo/bar" (3:Nat)) "foo/*" 99)
        "foo/bar" = (some 3, "/foo/bar") := by
  refine ⟨?_, ?_, ?_⟩
  · intro α sep k pat val pre post c idx xs hmatch hlast hpre hc
    have hcond : ¬(xs.getD idx "" ≠ k ∧ k ≠ wildcard) := by
      rcases hmatch with h | h
      · exact fun hc' => hc'.1 h
      · exact fun hc' => hc'.2 h
    rw [get, if_neg hcond, if_neg hlast,
      getList_append_of_empty pre (c :: post) (idx+1) xs wildcard hpre,
      getList_cons_of_ne c post (idx+1) xs wildcard hc]
  · have hT : addOrKeep (addOrKeep (newWildcardTrie '/') "foo/*" (99:Nat)) "foo/bar" 3
        = .node '/' "" "" none [.node '/' "foo" "/foo" none
            [.node '/' "*" "/foo/*" (some 99) [],
             .node '/' "bar" "/foo/bar" (some 3) []]] := by
      have ha : goSplit '/' "foo/*" = ["foo", "*"] := rfl
      have hb : goSplit '/' "foo/bar" = ["foo", "bar"] := rfl
      simp [addOrKeep, Add, ha, hb, grow, growChildren, newTrie, withValue,
        newWildcardTrie, wildcardTrie.separator, wildcardTrie.key, goJoin, joinC]
    rw [hT]
    decide
  · have hT : addOrKeep (addOrKeep (newWildcardTrie '/') "foo/bar" (3:Nat)) "foo/*" 99
        = .node '/' "" "" none [.node '/' "foo" "/foo" none
            [.node '/' "bar" "/foo/bar" (some 3) [],
             .node '/' "*" "/foo/*" (some 99) []]] := by
      have ha : goSplit '/' "foo/bar" = ["foo", "bar"] := rfl
      have hb : goSplit '/' "foo/*" = ["foo", "*"] := rfl
      simp [addOrKeep, Add, ha, hb, grow, growChildren, newTrie, withValue,
        newWildcardTrie, wildcardTrie.separator, wildcardTrie.key, goJoin, joinC]
    rw [hT]
    decide

/-- Witness for C2's general conjunct: with children
`[*(99), bar(3)]` under `foo` and path `["foo", "bar"]`, the earliest
child whose subtree yields a non-empty pattern is the wildcard, and
the node-level walk returns its result. -/
theorem C2_first_registered_wins_witness :
    get (wildcardTrie.node '/' "foo" "/foo" (none : Option Nat)
        ([] ++ (wildcardTrie.node '/' "*" "/foo/*" (some 99) []) ::
          [wildcardTrie.node '/' "bar" "/foo/bar" (some 3) []])) 0 ["foo", "bar"] wildcard
      = get (wildcardTrie.node '/' "*" "/foo/*" (some (99:Nat)) []) 1 ["foo", "bar"] wildcard :=
  C2_first_registered_wins.1 Nat '/' "foo" "/foo" none []
    [wildcardTrie.node '/' "bar" "/foo/bar" (some 3) []]
    (wildcardTrie.node '/' "*" "/foo/*" (some 99) []) 0 ["foo", "bar"]
    (Or.inl (by decide)) (by decide) (by decide) (by decide)

/-- C4 counterexample: with separator `":"`, adding `"a"` creates a
node whose full pattern is `"/a"` — the prefix is the literal slash of
`newTrie`, not the configured separator, so the pattern is not the
segments joined and prefixed by `":"` (which would be `":a"`). -/
theorem C4_fullPattern_counterexample :
    addOrKeep (newWildcardTrie ':') "a" (1:Nat)
        = .node ':' "" "" none [.node ':' "a" "/a" (some 1) []]
    ∧ ("/a" : String) ≠ ":a" := by
  constructor
  · have ha : goSplit ':' "a" = ["a"] := rfl
    simp [addOrKeep, Add, ha, grow, growChildren, newTrie, withValue,
      newWildcardTrie, wildcardTrie.separator, wildcardTrie.key, goJoin, joinC]
  · decide

/-- C4 (amended): in every trie reachable from `newWildcardTrie sep`
by `Add` calls whose patterns do not begin with the separator (first
split segment non-empty), every non-root node carries the configured
separator and its full pattern equals the literal `"/"` followed by
the segments from the root to that node joined by the separator
(`patOK`); with a leading separator the skipped empty first segment
also enters the join, doubling the slash (see C1/C3), and for a
separator other than `"/"` the prefix still is the literal slash (see
the counterexample). -/
theorem C4_fullPattern_invariant {α : Type} (sep : Char) (ops : List (String × α))
    (h : ∀ pv ∈ ops, (goSplit sep pv.1).headD "" ≠ "") :
    patOK sep [] (addAll (newWildcardTrie sep) ops) = true :=
  patOK_addAll sep ops (newWildcardTrie sep) rfl h rfl

/-- Witness for C4 on the insertion sequence
`[("foo/bar", 1), ("foo/*", 2)]`. -/
theorem C4_fullPattern_invariant_witness :
    patOK '/' [] (addAll (newWildcardTrie '/') [("foo/bar", (1:Nat)), ("foo/*", 2)]) = true :=
  C4_fullPattern_invariant '/' [("foo/bar", (1:Nat)), ("foo/*", 2)] (by decide)

/-- C5 counterexample: adding `"foo"` with value 1 and then value 2 to
a fresh trie makes `Get("foo")` return the second value, but with
matched pattern `"/foo"`, not the inserted pattern string `"foo"`. -/
theorem C5_overwrite_counterexample :
    Get (addOrKeep (addOrKeep (newWildcardTrie '/') "foo" (1:Nat)) "foo" 2) "foo"
        = (some 2, "/foo")
    ∧ ((some 2, "/foo") : Option Nat × String) ≠ (some 2, "foo") := by
  have hT : addOrKeep (addOrKeep (newWildcardTrie '/') "foo" (1:Nat)) "foo" 2
      = .node '/' "" "" none [.node '/' "foo" "/foo" (some 2) []] := by
    have ha : goSplit '/' "foo" = ["foo"] := rfl
    simp [addOrKeep, Add, ha, grow, growChildren, newTrie, withValue,
      newWildcardTrie, wildcardTrie.separator, wildcardTrie.key, goJoin, joinC]
  rw [hT]
  exact ⟨by decide, by decide⟩

/-- C5 (amended): `Add(p, v1)` followed by `Add(p, v2)` produces
exactly the trie of `Add(p, v2)` alone — the second value wins and
nothing but that node's value differs from the single-insert trie —
and on the empty `"/"`-trie, for every non-empty `p` that does not end
in the separator, `Get(p)` afterwards returns `(v2, "/" ++ p)`: the
matched pattern is the inserted pattern prefixed with a literal slash
(with the leading empty segment kept when `p` itself starts with
`"/"`), not `p` itself. -/
theorem C5_overwrite_amended :
    (∀ (α : Type) (t : wildcardTrie α) (p : String) (v1 v2 : α),
      addOrKeep (addOrKeep t p v1) p v2 = addOrKeep t p v2)
    ∧ (∀ (α : Type) (p : String) (v1 v2 : α), p ≠ "" →
      ¬(1 < (goSplit '/' p).length ∧ (goSplit '/' p).getLastD "" = "") →
      Get (addOrKeep (addOrKeep (newWildcardTrie '/') p v1) p v2) p
        = (some v2, "/" ++ p)) := by
  refine ⟨fun α t p v1 v2 => addOrKeep_absorb t p v1 v2, ?_⟩
  intro α p v1 v2 hp hnoerr
  rw [addOrKeep_absorb]
  have hne : goSplit '/' p ≠ [] := goSplit_ne_nil '/' p
  have hne1 : goSplit '/' p ≠ [""] := fun h =>
    hp ((goSplit_eq_singleton_empty_iff '/' p).mp h)
  have hadd : addOrKeep (newWildcardTrie '/') p v2
      = grow (newWildcardTrie '/')
          (if (goSplit '/' p).headD "" = "" then 1 else 0) (goSplit '/' p) v2 := by
    simp only [addOrKeep, Add, newWildcardTrie, wildcardTrie.separator]
    rw [if_neg hnoerr]
  by_cases hhead : (goSplit '/' p).headD "" = ""
  · have hlen2 : 2 ≤ (goSplit '/' p).length := by
      cases hxs : goSplit '/' p with
      | nil => exact absurd hxs hne
      | cons x rest =>
        cases rest with
        | nil =>
          exfalso
          apply hne1
          rw [hxs] at hhead ⊢
          simp at hhead
          rw [hhead]
        | cons y ys => simp
    rw [hadd, if_pos hhead,
      show (newWildcardTrie '/' : wildcardTrie α) = .node '/' "" "" none [] from rfl,
      grow_childless '/' "" "" none v2 1 (goSplit '/' p) (by omega)]
    simp only [Get, wildcardTrie.separator, wildcardTrie.children]
    rw [if_pos hhead]
    have hg0 : (goSplit '/' p).getD 0 "" = "" := by
      rw [getD_eq_headD_drop]
      simpa using hhead
    rw [get, if_neg (fun hc => hc.1 hg0),
      if_neg (by omega : ¬((goSplit '/' p).length - 0 = 1))]
    have hdropne : (goSplit '/' p).drop 1 ≠ [] := by
      intro h
      have hl := List.length_drop 1 (goSplit '/' p)
      rw [h] at hl
      simp at hl
      omega
    have hchain := get_chainT '/' v2 wildcard ((goSplit '/' p).drop 1)
        ((goSplit '/' p).take 1) 1 (goSplit '/' p) rfl hdropne
    rw [getList_cons_of_ne _ [] 1 (goSplit '/' p) wildcard
        (by rw [hchain]; exact str_slash_append_ne_empty _),
      hchain, List.take_append_drop, goJoin_goSplit]
  · have hlen0 : 0 < (goSplit '/' p).length := by
      cases hxs : goSplit '/' p with
      | nil => exact absurd hxs hne
      | cons x rest => simp
    rw [hadd, if_neg hhead,
      show (newWildcardTrie '/' : wildcardTrie α) = .node '/' "" "" none [] from rfl,
      grow_childless '/' "" "" none v2 0 (goSplit '/' p) hlen0,
      List.take_zero, List.drop_zero]
    simp only [Get, wildcardTrie.separator, wildcardTrie.children]
    rw [if_neg hhead]
    have hchain := get_chainT '/' v2 wildcard (goSplit '/' p) [] 0 (goSplit '/' p)
      (by simp) hne
    rw [getList_cons_of_ne _ [] 0 (goSplit '/' p) wildcard
        (by rw [hchain]; exact str_slash_append_ne_empty _),
      hchain, List.nil_append, goJoin_goSplit]

/-- Witness for C5: overwrite absorption at `("x", 1, 2)` and the
`Get` result after overwriting `"foo/bar"`. -/
theorem C5_overwrite_amended_witness :
    addOrKeep (addOrKeep (newWildcardTrie '/') "x" (1:Nat)) "x" 2
        = addOrKeep (newWildcardTrie '/') "x" 2
    ∧ Get (addOrKeep (addOrKeep (newWildcardTrie '/') "foo/bar" (1:Nat)) "foo/bar" 2)
        "foo/bar" = (some 2, "/" ++ "foo/bar") :=
  ⟨C5_overwrite_amended.1 Nat (newWildcardTrie '/') "x" 1 2,
   C5_overwrite_amended.2 Nat "foo/bar" 1 2 (by decide) (by decide)⟩

/-- C9 counterexample: after `Add("", 5)` the root's value is set, yet
`Get("/")` (the bare separator) reports no match — it does not resolve
against the root's value as the claim states. -/
theorem C9_root_resolution_counterexample :
    (addOrKeep (newWildcardTrie '/') "" (5:Nat)).value = some 5
    ∧ Get (addOrKeep (newWildcardTrie '/') "" (5:Nat)) "/" = (none, "")
    ∧ ((none, "") : Option Nat × String) ≠ (some 5, "") := by
  have hT : addOrKeep (newWildcardTrie '/') "" (5:Nat) = .node '/' "" "" (some 5) [] := by
    have ha : goSplit '/' "" = [""] := rfl
    simp [addOrKeep, Add, ha, grow, newWildcardTrie, wildcardTrie.separator]
  rw [hT]
  exact ⟨by decide, by decide, by decide⟩

/-- Witness for C7's amended theorem at the inserted value 3. -/
theorem C7_valueless_node_amended_witness :
    Get (addOrKeep (newWildcardTrie '/') "/foo/bar" (3:Nat)) "/foo" = (none, "//foo") :=
  C7_valueless_node_amended 3

end TreemuxModel
